import Mathlib

/-!
Shallow embedding of the realtime audio-scheduling and conversation-turn
engine of the Clara voice client (`src/App.tsx`, with the data shapes of
`src/types.ts`).

Modelling conventions:
* Times on the shared `AudioContext` playback clock are rationals (seconds);
  the browser's floating-point clock is idealized as exact arithmetic.
* The JS `Set` `audioSourcesRef.current` iterates in insertion order, so it is
  modelled as a list in insertion order; `s.stop()` on a source is modelled by
  its removal from that set.
* `onmessage` events are handled one at a time in arrival order (spec §5);
  each handler invocation is a pure state transformer.
* Message identifiers (`Date.now().toString()` in the source) are modelled as
  naturals drawn from a per-session counter; no claim depends on their values,
  only on identity being preserved by in-place updates.
-/

namespace Clara

/-- The two transcript roles: `user` is the local participant, `model` the
remote (the spec's "remote role"). -/
inductive Role where
  | user
  | model
deriving DecidableEq, Repr

/-- `ChatMessage` from `src/types.ts`: `{id, role, text, isFinal}`. -/
structure ChatMessage where
  id : Nat
  role : Role
  text : String
  isFinal : Bool
deriving DecidableEq, Repr

/-- `AvatarPose` from `src/types.ts`. -/
inductive AvatarPose where
  | idleFront
  | listeningSide
  | thinkingGhost
  | walkingAway
deriving DecidableEq, Repr

/-- A scheduled playback unit: an `AudioBufferSourceNode` that was `start`ed at
`startTime` with a decoded buffer of `duration` seconds.  `chunkId` is the
arrival sequence number of the chunk it plays. -/
structure ScheduledUnit where
  chunkId : Nat
  startTime : ℚ
  duration : ℚ
deriving DecidableEq, Repr

/-- End of a unit's playback interval. -/
def ScheduledUnit.endTime (u : ScheduledUnit) : ℚ := u.startTime + u.duration

/-- The scheduler state of `src/App.tsx`: `nextStartTimeRef.current` and
`audioSourcesRef.current`. -/
structure SchedulerState where
  nextStartTime : ℚ
  audioSources : List ScheduledUnit
deriving DecidableEq, Repr

/-- Initial scheduler state: `nextStartTimeRef` starts at `0`, no sources. -/
def initScheduler : SchedulerState := ⟨0, []⟩

/-- `playAudioChunk` (src/App.tsx lines 139-179), restricted to the scheduler
state it mutates.  `now` is `ctx.currentTime` at the moment the chunk is
scheduled.  Modelled from the spec: `decodeAudioData` (src/utils/audioUtils)
is not under `src/`; per spec §4.1 decoding yields a playable buffer of some
duration or fails, so the decode outcome is the `decoded` argument.  On
`none` the source's `catch` logs the error and performs no state change; on
`some duration` the source runs
`if (nextStartTime < currentTime) nextStartTime = currentTime;
source.start(nextStartTime); nextStartTime += duration;
audioSources.add(source)`. -/
def playAudioChunk (s : SchedulerState) (now : ℚ) (chunkId : Nat)
    (decoded : Option ℚ) : SchedulerState :=
  match decoded with
  | none => s
  | some duration =>
      let start := if s.nextStartTime < now then now else s.nextStartTime
      { nextStartTime := start + duration,
        audioSources := s.audioSources ++ [⟨chunkId, start, duration⟩] }

/-- `stopAllAudio` (src/App.tsx lines 181-187): `stop()` every source, clear
the set, reset `nextStartTimeRef.current` to `0`. -/
def stopAllAudio (_s : SchedulerState) : SchedulerState :=
  { nextStartTime := 0, audioSources := [] }

/-- A unit's `onended` callback (src/App.tsx lines 170-175): completion removes
the source from the set, nothing else. -/
def unitEnded (s : SchedulerState) (u : ScheduledUnit) : SchedulerState :=
  { s with audioSources := s.audioSources.erase u }

/-- An inbound audio chunk as the scheduler sees it: its arrival sequence
number, the clock value `now` when its decode completes and scheduling runs
(this is where per-chunk decode latency shows up), and its decode result
(`none` = decode failure). -/
structure AudioChunk where
  chunkId : Nat
  now : ℚ
  decoded : Option ℚ
deriving DecidableEq, Repr

/-- Run a sequence of enqueues in arrival order (spec §5: inbound channel
events are handled one at a time in arrival order). -/
def runChunks (s : SchedulerState) : List AudioChunk → SchedulerState
  | [] => s
  | c :: rest => runChunks (playAudioChunk s c.now c.chunkId c.decoded) rest

/-- The value of `nextStartTime` after processing one chunk from clock value
`nst`. -/
def stepNst (nst : ℚ) (c : AudioChunk) : ℚ :=
  match c.decoded with
  | none => nst
  | some d => (if nst < c.now then c.now else nst) + d

/-- The units appended by a chunk sequence, starting from clock value `nst`. -/
def newUnits : ℚ → List AudioChunk → List ScheduledUnit
  | _, [] => []
  | nst, c :: rest =>
      match c.decoded with
      | none => newUnits nst rest
      | some d =>
          ⟨c.chunkId, if nst < c.now then c.now else nst, d⟩ ::
            newUnits ((if nst < c.now then c.now else nst) + d) rest

/-- The final `nextStartTime` after a chunk sequence. -/
def newNst : ℚ → List AudioChunk → ℚ
  | nst, [] => nst
  | nst, c :: rest => newNst (stepNst nst c) rest

/-- `promptFrom nst chunks`: every chunk's decode completes no later than the
scheduler clock value accumulated so far — the spec's "enqueue calls happen
faster than realtime" regime. -/
def promptFrom : ℚ → List AudioChunk → Prop
  | _, [] => True
  | nst, c :: rest => c.now ≤ nst ∧ promptFrom (stepNst nst c) rest

/-- As `promptFrom`, but the first chunk is unconstrained: it sets the
baseline start time of the sequence. -/
def promptSeq : ℚ → List AudioChunk → Prop
  | _, [] => True
  | nst, c :: rest => promptFrom (stepNst nst c) rest

instance promptFromDecidable :
    ∀ (nst : ℚ) (chunks : List AudioChunk), Decidable (promptFrom nst chunks)
  | _, [] => .isTrue trivial
  | nst, c :: rest =>
      have : Decidable (promptFrom (stepNst nst c) rest) :=
        promptFromDecidable (stepNst nst c) rest
      decidable_of_iff (c.now ≤ nst ∧ promptFrom (stepNst nst c) rest) Iff.rfl

instance promptSeqDecidable :
    ∀ (nst : ℚ) (chunks : List AudioChunk), Decidable (promptSeq nst chunks)
  | _, [] => .isTrue trivial
  | nst, c :: rest =>
      decidable_of_iff (promptFrom (stepNst nst c) rest) Iff.rfl

theorem runChunks_spec (chunks : List AudioChunk) (s : SchedulerState) :
    runChunks s chunks =
      ⟨newNst s.nextStartTime chunks,
        s.audioSources ++ newUnits s.nextStartTime chunks⟩ := by
  induction chunks generalizing s with
  | nil => simp [runChunks, newUnits, newNst]
  | cons c rest ih =>
      cases hd : c.decoded with
      | none =>
          simp [runChunks, playAudioChunk, hd, newUnits, newNst, stepNst, ih]
      | some d =>
          simp only [runChunks, playAudioChunk, hd, newUnits, newNst, stepNst, ih]
          simp

theorem newUnits_ordered (chunks : List AudioChunk) (nst : ℚ)
    (hdur : ∀ c ∈ chunks, ∀ d ∈ c.decoded, 0 ≤ d) :
    (∀ u ∈ newUnits nst chunks, nst ≤ u.startTime ∧ 0 ≤ u.duration) ∧
    List.Chain' (fun u v => u.endTime ≤ v.startTime) (newUnits nst chunks) ∧
    List.Chain' (fun u v : ScheduledUnit => u.startTime ≤ v.startTime)
      (newUnits nst chunks) := by
  induction chunks generalizing nst with
  | nil => simp [newUnits]
  | cons c rest ih =>
      have hdur' : ∀ c' ∈ rest, ∀ d ∈ c'.decoded, 0 ≤ d :=
        fun c' hc' => hdur c' (List.mem_cons_of_mem _ hc')
      cases hd : c.decoded with
      | none =>
          simpa [newUnits, hd] using ih nst hdur'
      | some d =>
          have hd0 : 0 ≤ d := hdur c (List.mem_cons_self _ _) d (by simp [hd])
          set start := if nst < c.now then c.now else nst with hstart
          have hnst : nst ≤ start := by
            rw [hstart]; split
            · exact le_of_lt (by assumption)
            · exact le_refl _
          obtain ⟨ihmem, ihchain, ihchain2⟩ := ih (start + d) hdur'
          refine ⟨?_, ?_, ?_⟩
          · intro u hu
            simp only [newUnits, hd, List.mem_cons] at hu
            rcases hu with rfl | hu
            · exact ⟨hnst, hd0⟩
            · have := ihmem u hu
              exact ⟨le_trans hnst (by linarith [this.1]), this.2⟩
          · simp only [newUnits, hd]
            rw [List.chain'_cons']
            refine ⟨?_, ihchain⟩
            intro y hy
            have hmem := List.mem_of_mem_head? hy
            have h1 := (ihmem y hmem).1
            simp only [ScheduledUnit.endTime]
            exact h1
          · simp only [newUnits, hd]
            rw [List.chain'_cons']
            refine ⟨?_, ihchain2⟩
            intro y hy
            have hmem := List.mem_of_mem_head? hy
            have h1 := (ihmem y hmem).1
            linarith

theorem newUnits_gapless (chunks : List AudioChunk) (nst : ℚ)
    (hp : promptFrom nst chunks) :
    List.Chain' (fun u v => u.endTime = v.startTime) (newUnits nst chunks) ∧
    ∀ u ∈ (newUnits nst chunks).head?, u.startTime = nst := by
  induction chunks generalizing nst with
  | nil => simp [newUnits]
  | cons c rest ih =>
      obtain ⟨hnow, hrest⟩ := hp
      cases hd : c.decoded with
      | none =>
          have := ih nst (by simpa [stepNst, hd] using hrest)
          simpa [newUnits, hd] using this
      | some d =>
          have hstart : (if nst < c.now then c.now else nst) = nst := by
            split
            · exact absurd hnow (not_le.mpr (by assumption))
            · rfl
          have hrest' : promptFrom (nst + d) rest := by
            simpa [stepNst, hd, hstart] using hrest
          obtain ⟨ihchain, ihhead⟩ := ih (nst + d) hrest'
          constructor
          · simp only [newUnits, hd, hstart]
            rw [List.chain'_cons']
            refine ⟨?_, ihchain⟩
            intro y hy
            have := ihhead y hy
            simp [ScheduledUnit.endTime, this]
          · intro u hu
            simp only [newUnits, hd, hstart] at hu
            simp only [List.head?_cons, Option.mem_def, Option.some.injEq] at hu
            subst hu
            rfl

theorem newUnits_gapless_seq (nst : ℚ) (chunks : List AudioChunk)
    (hp : promptSeq nst chunks) :
    List.Chain' (fun u v => u.endTime = v.startTime) (newUnits nst chunks) := by
  cases chunks with
  | nil => simp [newUnits]
  | cons c rest =>
      have hrest : promptFrom (stepNst nst c) rest := hp
      cases hd : c.decoded with
      | none =>
          have := (newUnits_gapless rest nst (by simpa [stepNst, hd] using hrest)).1
          simpa [newUnits, hd] using this
      | some d =>
          set start := if nst < c.now then c.now else nst with hstart
          have hrest' : promptFrom (start + d) rest := by
            simpa [stepNst, hd, hstart] using hrest
          obtain ⟨ihchain, ihhead⟩ := newUnits_gapless rest (start + d) hrest'
          simp only [newUnits, hd]
          rw [List.chain'_cons']
          refine ⟨?_, by simpa [hstart] using ihchain⟩
          intro y hy
          have := ihhead y (by simpa [hstart] using hy)
          simp [ScheduledUnit.endTime, this]

theorem newUnits_fifo (chunks : List AudioChunk) (nst : ℚ)
    (hsucc : ∀ c ∈ chunks, c.decoded.isSome = true) :
    (newUnits nst chunks).map ScheduledUnit.chunkId =
      chunks.map AudioChunk.chunkId := by
  induction chunks generalizing nst with
  | nil => simp [newUnits]
  | cons c rest ih =>
      have hsucc' : ∀ c' ∈ rest, c'.decoded.isSome = true :=
        fun c' hc' => hsucc c' (List.mem_cons_of_mem _ hc')
      cases hd : c.decoded with
      | none =>
          have := hsucc c (List.mem_cons_self _ _)
          rw [hd] at this
          simp at this
      | some d =>
          simp [newUnits, hd, ih _ hsucc']

/-- C1: for chunks enqueued faster than realtime the scheduler computes each
unit's start as `max(now, nextStartTime)` and advances `nextStartTime` by the
unit's duration, so start times are non-decreasing and unit `i`'s end time
equals unit `i+1`'s start time; enqueuing durations 0.5s, 0.3s, 0.2s starting
at clock time `t0` plans starts `t0`, `t0+0.5`, `t0+0.8` and leaves
`nextStartTime = t0+1.0`. -/
theorem C1_scheduler_gapless (t0 : ℚ) (ht0 : 0 ≤ t0) :
    (∀ (s : SchedulerState) (now : ℚ) (cid : Nat) (d : ℚ),
        playAudioChunk s now cid (some d) =
          { nextStartTime := max now s.nextStartTime + d,
            audioSources :=
              s.audioSources ++ [⟨cid, max now s.nextStartTime, d⟩] }) ∧
    (∀ chunks : List AudioChunk,
        (∀ c ∈ chunks, ∀ d ∈ c.decoded, 0 ≤ d) →
        promptSeq 0 chunks →
        List.Chain' (fun u v : ScheduledUnit => u.startTime ≤ v.startTime)
            (runChunks initScheduler chunks).audioSources ∧
        List.Chain' (fun u v => u.endTime = v.startTime)
            (runChunks initScheduler chunks).audioSources) ∧
    ((runChunks initScheduler
        [⟨0, t0, some (1/2)⟩, ⟨1, t0, some (3/10)⟩,
          ⟨2, t0, some (1/5)⟩]).audioSources.map ScheduledUnit.startTime =
        [t0, t0 + 1/2, t0 + 4/5] ∧
      (runChunks initScheduler
        [⟨0, t0, some (1/2)⟩, ⟨1, t0, some (3/10)⟩,
          ⟨2, t0, some (1/5)⟩]).nextStartTime = t0 + 1) := by
  refine ⟨?_, ?_, ?_⟩
  · intro s now cid d
    simp only [playAudioChunk]
    have : (if s.nextStartTime < now then now else s.nextStartTime) =
        max now s.nextStartTime := by
      rcases lt_or_le s.nextStartTime now with h | h
      · simp [if_pos h, max_eq_left (le_of_lt h)]
      · simp [if_neg (not_lt.mpr h), max_eq_right h]
    rw [this]
  · intro chunks hdur hp
    rw [runChunks_spec]
    constructor
    · simpa [initScheduler] using (newUnits_ordered chunks 0 hdur).2.2
    · simpa [initScheduler] using newUnits_gapless_seq 0 chunks hp
  · have h1 : ¬ ((0:ℚ) < t0 ∧ False) := by simp
    constructor
    · simp only [runChunks, playAudioChunk, initScheduler]
      rcases eq_or_lt_of_le ht0 with h | h
      · simp [← h]
        norm_num
      · rw [if_pos h]
        have h2 : ¬ (t0 + 1/2 < t0) := by linarith
        have h3 : ¬ (t0 + 1/2 + 3/10 < t0) := by linarith
        simp only [if_neg h2, if_neg h3]
        simp [ScheduledUnit.startTime]
        linarith
    · simp only [runChunks, playAudioChunk, initScheduler]
      rcases eq_or_lt_of_le ht0 with h | h
      · simp [← h]
        norm_num
      · rw [if_pos h]
        have h2 : ¬ (t0 + 1/2 < t0) := by linarith
        have h3 : ¬ (t0 + 1/2 + 3/10 < t0) := by linarith
        simp only [if_neg h2, if_neg h3]
        show t0 + 1/2 + 3/10 + 1/5 = t0 + 1
        linarith

theorem C1_scheduler_gapless_witness :
    (runChunks initScheduler
        [⟨0, 1, some (1/2)⟩, ⟨1, 1, some (3/10)⟩,
          ⟨2, 1, some (1/5)⟩]).audioSources.map ScheduledUnit.startTime =
      [1, 1 + 1/2, 1 + 4/5] ∧
    (runChunks initScheduler
        [⟨0, 1, some (1/2)⟩, ⟨1, 1, some (3/10)⟩,
          ⟨2, 1, some (1/5)⟩]).nextStartTime = 1 + 1 :=
  (C1_scheduler_gapless 1 (by norm_num)).2.2

/-- C2: for every inbound chunk sequence, playback intervals are assigned in
strict arrival order — the active list carries the chunks' arrival sequence
numbers in order and consecutive intervals never overlap — for arbitrary
per-chunk decode-completion clock values `now` (i.e. arbitrary decode
latency), because each placement reads only the shared clock state; under
the faster-than-realtime regime the intervals are moreover gapless. -/
theorem C2_fifo_decode_latency (chunks : List AudioChunk)
    (hsucc : ∀ c ∈ chunks, c.decoded.isSome = true)
    (hdur : ∀ c ∈ chunks, ∀ d ∈ c.decoded, 0 ≤ d) :
    (runChunks initScheduler chunks).audioSources.map ScheduledUnit.chunkId =
        chunks.map AudioChunk.chunkId ∧
    List.Chain' (fun u v => u.endTime ≤ v.startTime)
        (runChunks initScheduler chunks).audioSources ∧
    (promptSeq 0 chunks →
      List.Chain' (fun u v => u.endTime = v.startTime)
        (runChunks initScheduler chunks).audioSources) := by
  rw [runChunks_spec]
  refine ⟨?_, ?_, ?_⟩
  · simpa [initScheduler] using newUnits_fifo chunks 0 hsucc
  · simpa [initScheduler] using (newUnits_ordered chunks 0 hdur).2.1
  · intro hp
    simpa [initScheduler] using newUnits_gapless_seq 0 chunks hp

theorem C2_fifo_decode_latency_witness :
    (runChunks initScheduler
        [⟨0, 2, some 1⟩, ⟨1, 1, some 2⟩]).audioSources.map
        ScheduledUnit.chunkId =
      ([⟨0, 2, some 1⟩, ⟨1, 1, some 2⟩] : List AudioChunk).map
        AudioChunk.chunkId ∧
    List.Chain' (fun u v => u.endTime ≤ v.startTime)
        (runChunks initScheduler
          [⟨0, 2, some 1⟩, ⟨1, 1, some 2⟩]).audioSources :=
  ⟨(C2_fifo_decode_latency [⟨0, 2, some 1⟩, ⟨1, 1, some 2⟩]
      (by decide) (by decide)).1,
    (C2_fifo_decode_latency [⟨0, 2, some 1⟩, ⟨1, 1, some 2⟩]
      (by decide) (by decide)).2.1⟩

/-- C4: `stopAllAudio` (the spec's `cancelAll`) empties the active source set
and resets `nextStartTime` to `0`, so an enqueue performed right after it
schedules the new chunk to start exactly at the current clock time `now`. -/
theorem C4_cancelAll_resets (s : SchedulerState) (now : ℚ) (cid : Nat)
    (d : ℚ) (hnow : 0 ≤ now) :
    (stopAllAudio s).audioSources = [] ∧
    (stopAllAudio s).nextStartTime = 0 ∧
    (playAudioChunk (stopAllAudio s) now cid (some d)).audioSources =
      [⟨cid, now, d⟩] ∧
    (playAudioChunk (stopAllAudio s) now cid (some d)).nextStartTime =
      now + d := by
  refine ⟨rfl, rfl, ?_, ?_⟩ <;>
    · simp only [playAudioChunk, stopAllAudio]
      rcases eq_or_lt_of_le hnow with h | h
      · simp [← h]
      · simp [if_pos h]

theorem C4_cancelAll_resets_witness :
    (stopAllAudio ⟨7, [⟨0, 3, 2⟩]⟩).audioSources = [] ∧
    (stopAllAudio ⟨7, [⟨0, 3, 2⟩]⟩).nextStartTime = 0 ∧
    (playAudioChunk (stopAllAudio ⟨7, [⟨0, 3, 2⟩]⟩) 5 1
        (some 2)).audioSources = [⟨1, 5, 2⟩] ∧
    (playAudioChunk (stopAllAudio ⟨7, [⟨0, 3, 2⟩]⟩) 5 1
        (some 2)).nextStartTime = 5 + 2 :=
  C4_cancelAll_resets ⟨7, [⟨0, 3, 2⟩]⟩ 5 1 2 (by decide)

/-- C9: a chunk whose decode fails is dropped by the `catch` without touching
`nextStartTime` or the active source set, and the scheduling of every other
chunk of the sequence is exactly as if the failing chunks had never been
enqueued. -/
theorem C9_decode_failure_dropped (s : SchedulerState) (now : ℚ) (cid : Nat)
    (rest : List AudioChunk) :
    playAudioChunk s now cid none = s ∧
    runChunks s (⟨cid, now, none⟩ :: rest) = runChunks s rest ∧
    ∀ chunks : List AudioChunk,
      runChunks s chunks =
        runChunks s (chunks.filter fun c => c.decoded.isSome) := by
  refine ⟨rfl, rfl, ?_⟩
  intro chunks
  induction chunks generalizing s with
  | nil => rfl
  | cons c cs ih =>
      cases hd : c.decoded with
      | none =>
          simpa [runChunks, playAudioChunk, hd, List.filter_cons] using ih s
      | some d =>
          simp only [runChunks, List.filter_cons, hd, Option.isSome_some,
            if_pos]
          exact ih _

/-- One inbound server message of the live session, as read by `onmessage`
(src/App.tsx lines 310-344): an optional audio part (already reduced to its
decode outcome, see `playAudioChunk`), optional per-role transcription deltas,
and the `turnComplete` / `interrupted` flags. -/
structure LiveServerMessage where
  audio : Option (Option ℚ)
  outputTranscription : Option String
  inputTranscription : Option String
  turnComplete : Bool
  interrupted : Bool
deriving DecidableEq, Repr

/-- Session state owned by the `App` component: the scheduler refs, the
`messages` list, the two transcription accumulators
(`currentOutputTransRef` / `currentInputTransRef`), the avatar pose, a
counter supplying fresh message ids and one supplying chunk arrival
numbers. -/
structure SessionState where
  sched : SchedulerState
  messages : List ChatMessage
  outputTrans : String
  inputTrans : String
  pose : AvatarPose
  nextId : Nat
  nextChunkId : Nat
deriving DecidableEq, Repr

/-- Initial session state. -/
def initSession : SessionState :=
  ⟨initScheduler, [], "", "", .idleFront, 0, 0⟩

/-- The transcription accumulator of a role (`model` ↦
`currentOutputTransRef`, `user` ↦ `currentInputTransRef`). -/
def accum (s : SessionState) (role : Role) : String :=
  match role with
  | .model => s.outputTrans
  | .user => s.inputTrans

/-- Clear a role's transcription accumulator. -/
def clearAccum (s : SessionState) (role : Role) : SessionState :=
  match role with
  | .model => { s with outputTrans := "" }
  | .user => { s with inputTrans := "" }

/-- `updateLiveMessage` (src/App.tsx lines 394-405): if the last message
belongs to `role` and is not final, replace its text in place; otherwise
append a fresh non-final message.  `freshId` models `Date.now().toString()`. -/
def updateLiveMessage (prev : List ChatMessage) (role : Role) (text : String)
    (freshId : Nat) : List ChatMessage :=
  match prev.getLast? with
  | some lastMsg =>
      if lastMsg.role = role ∧ lastMsg.isFinal = false then
        prev.dropLast ++ [{ lastMsg with text := text }]
      else prev ++ [⟨freshId, role, text, false⟩]
  | none => prev ++ [⟨freshId, role, text, false⟩]

/-- `finalizeMessage` (src/App.tsx lines 407-417): if the last message belongs
to `role` and is not final, replace its text and flip `isFinal`; otherwise
leave the list unchanged. -/
def finalizeMessage (prev : List ChatMessage) (role : Role) (text : String) :
    List ChatMessage :=
  match prev.getLast? with
  | some lastMsg =>
      if lastMsg.role = role ∧ lastMsg.isFinal = false then
        prev.dropLast ++ [{ lastMsg with text := text, isFinal := true }]
      else prev
  | none => prev

/-- The transcript-delta handling of `onmessage` (src/App.tsx lines 316-326):
concatenate the delta onto the role's accumulator and upsert the live
message with the accumulated text (the spec's `TranscriptAggregator.append`). -/
def appendTrans (s : SessionState) (role : Role) (delta : String) :
    SessionState :=
  match role with
  | .model =>
      let t := s.outputTrans ++ delta
      { s with outputTrans := t,
               messages := updateLiveMessage s.messages .model t s.nextId,
               nextId := s.nextId + 1 }
  | .user =>
      let t := s.inputTrans ++ delta
      { s with inputTrans := t,
               messages := updateLiveMessage s.messages .user t s.nextId,
               nextId := s.nextId + 1 }

/-- The message, if any, that a `finalizeMessage` call flips to final: the
spec-level return value (`ChatMessage | none`) of
`TranscriptAggregator.finalize`. -/
def finalizedOf (prev : List ChatMessage) (role : Role) (text : String) :
    Option ChatMessage :=
  match prev.getLast? with
  | some lastMsg =>
      if lastMsg.role = role ∧ lastMsg.isFinal = false then
        some { lastMsg with text := text, isFinal := true }
      else none
  | none => none

/-- The per-role finalization step of the `turnComplete` branch of `onmessage`
(src/App.tsx lines 328-337): when the role's accumulator is non-empty, run
`finalizeMessage` with the accumulated text and clear the accumulator;
otherwise do nothing.  The second component is the spec-level return value of
`TranscriptAggregator.finalize`. -/
def finalizeRole (s : SessionState) (role : Role) :
    SessionState × Option ChatMessage :=
  if accum s role ≠ "" then
    ({ clearAccum s role with
        messages := finalizeMessage s.messages role (accum s role) },
      finalizedOf s.messages role (accum s role))
  else (s, none)

/-- The audio branch of `onmessage` (src/App.tsx lines 311-314 plus the pose
and bookkeeping side effects inside `playAudioChunk`): enqueue the chunk; on
a successful decode the avatar pose is set to `IDLE_FRONT`. -/
def audioStage (s : SessionState) (now : ℚ) (audio : Option (Option ℚ)) :
    SessionState :=
  match audio with
  | none => s
  | some decoded =>
      let s' := { s with
        sched := playAudioChunk s.sched now s.nextChunkId decoded,
        nextChunkId := s.nextChunkId + 1 }
      match decoded with
      | some _ => { s' with pose := .idleFront }
      | none => s'

/-- The transcription branch of `onmessage` for one role: apply the delta if
the message carries one. -/
def transStage (s : SessionState) (delta : Option String) (role : Role) :
    SessionState :=
  match delta with
  | some d => appendTrans s role d
  | none => s

/-- The `turnComplete` branch of `onmessage` (src/App.tsx lines 328-337):
finalize the model role, then the user role. -/
def turnCompleteStage (s : SessionState) (tc : Bool) : SessionState :=
  if tc then (finalizeRole (finalizeRole s .model).1 .user).1 else s

/-- The `interrupted` branch of `onmessage` (src/App.tsx lines 339-343):
`stopAllAudio()`, discard the model accumulator, pose `LISTENING_SIDE`. -/
def interruptedStage (s : SessionState) (intr : Bool) : SessionState :=
  if intr then
    { s with sched := stopAllAudio s.sched, outputTrans := "",
             pose := .listeningSide }
  else s

/-- `onmessage` (src/App.tsx lines 310-344), sequentialized (spec §5: inbound
events are handled one at a time): audio, then the model transcription delta,
then the user one, then `turnComplete`, then `interrupted`. -/
def handleMessage (s : SessionState) (now : ℚ) (msg : LiveServerMessage) :
    SessionState :=
  interruptedStage
    (turnCompleteStage
      (transStage
        (transStage (audioStage s now msg.audio) msg.outputTranscription
          .model)
        msg.inputTranscription .user)
      msg.turnComplete)
    msg.interrupted

/-- Handle a sequence of inbound events, in arrival order; each event is a
clock value paired with the message. -/
def handleEvents (s : SessionState) : List (ℚ × LiveServerMessage) →
    SessionState
  | [] => s
  | (now, msg) :: rest => handleEvents (handleMessage s now msg) rest

/-- A message carrying only a model (output) transcription delta. -/
def outputDeltaMsg (d : String) : LiveServerMessage :=
  ⟨none, some d, none, false, false⟩

/-- A message carrying only a user (input) transcription delta. -/
def inputDeltaMsg (d : String) : LiveServerMessage :=
  ⟨none, none, some d, false, false⟩

/-- A message carrying only the `turnComplete` flag. -/
def turnCompleteMsg : LiveServerMessage := ⟨none, none, none, true, false⟩

/-- A message carrying only the `interrupted` flag. -/
def interruptedMsg : LiveServerMessage := ⟨none, none, none, false, true⟩

theorem updateLiveMessage_nil (role : Role) (text : String) (freshId : Nat) :
    updateLiveMessage [] role text freshId = [⟨freshId, role, text, false⟩] :=
  rfl

theorem updateLiveMessage_concat_pos (l : List ChatMessage) (a : ChatMessage)
    (role : Role) (text : String) (freshId : Nat)
    (hrole : a.role = role) (hopen : a.isFinal = false) :
    updateLiveMessage (l ++ [a]) role text freshId =
      l ++ [{ a with text := text }] := by
  simp [updateLiveMessage, List.getLast?_concat, List.dropLast_concat,
    hrole, hopen]

theorem updateLiveMessage_concat_neg (l : List ChatMessage) (a : ChatMessage)
    (role : Role) (text : String) (freshId : Nat)
    (h : ¬(a.role = role ∧ a.isFinal = false)) :
    updateLiveMessage (l ++ [a]) role text freshId =
      (l ++ [a]) ++ [⟨freshId, role, text, false⟩] := by
  simp only [updateLiveMessage, List.getLast?_concat, if_neg h]

theorem finalizeMessage_nil (role : Role) (text : String) :
    finalizeMessage [] role text = [] := rfl

theorem finalizeMessage_concat_pos (l : List ChatMessage) (a : ChatMessage)
    (role : Role) (text : String)
    (hrole : a.role = role) (hopen : a.isFinal = false) :
    finalizeMessage (l ++ [a]) role text =
      l ++ [{ a with text := text, isFinal := true }] := by
  simp [finalizeMessage, List.getLast?_concat, List.dropLast_concat,
    hrole, hopen]

theorem finalizeMessage_concat_neg (l : List ChatMessage) (a : ChatMessage)
    (role : Role) (text : String) (h : ¬(a.role = role ∧ a.isFinal = false)) :
    finalizeMessage (l ++ [a]) role text = l ++ [a] := by
  simp only [finalizeMessage, List.getLast?_concat, if_neg h]

theorem mem_updateLiveMessage (m : ChatMessage) (prev : List ChatMessage)
    (role : Role) (text : String) (freshId : Nat)
    (hm : m ∈ updateLiveMessage prev role text freshId) :
    m ∈ prev ∨ m.isFinal = false := by
  rcases List.eq_nil_or_concat' prev with rfl | ⟨l, a, rfl⟩
  · rw [updateLiveMessage_nil] at hm
    simp at hm
    simp [hm]
  · by_cases h : a.role = role ∧ a.isFinal = false
    · rw [updateLiveMessage_concat_pos l a role text freshId h.1 h.2] at hm
      rcases List.mem_append.mp hm with h1 | h1
      · exact Or.inl (List.mem_append.mpr (Or.inl h1))
      · simp at h1
        subst h1
        exact Or.inr h.2
    · rw [updateLiveMessage_concat_neg l a role text freshId h] at hm
      rcases List.mem_append.mp hm with h1 | h1
      · exact Or.inl h1
      · simp at h1
        subst h1
        exact Or.inr rfl

theorem mem_finalizeMessage (m : ChatMessage) (prev : List ChatMessage)
    (role : Role) (text : String)
    (hm : m ∈ finalizeMessage prev role text) :
    m ∈ prev ∨ (m.role = role ∧ m.isFinal = true ∧ m.text = text) := by
  rcases List.eq_nil_or_concat' prev with rfl | ⟨l, a, rfl⟩
  · rw [finalizeMessage_nil] at hm
    simp at hm
  · by_cases h : a.role = role ∧ a.isFinal = false
    · rw [finalizeMessage_concat_pos l a role text h.1 h.2] at hm
      rcases List.mem_append.mp hm with h1 | h1
      · exact Or.inl (List.mem_append.mpr (Or.inl h1))
      · simp at h1
        subst h1
        exact Or.inr ⟨h.1, rfl, rfl⟩
    · rw [finalizeMessage_concat_neg l a role text h] at hm
      exact Or.inl hm

theorem audioStage_parts (s : SessionState) (now : ℚ)
    (audio : Option (Option ℚ)) :
    (audioStage s now audio).messages = s.messages ∧
    (audioStage s now audio).outputTrans = s.outputTrans ∧
    (audioStage s now audio).inputTrans = s.inputTrans := by
  rcases audio with _ | d
  · exact ⟨rfl, rfl, rfl⟩
  · rcases d with _ | d <;> exact ⟨rfl, rfl, rfl⟩

theorem appendTrans_model_parts (s : SessionState) (d : String) :
    (appendTrans s .model d).outputTrans = s.outputTrans ++ d ∧
    (appendTrans s .model d).inputTrans = s.inputTrans ∧
    (appendTrans s .model d).messages =
      updateLiveMessage s.messages .model (s.outputTrans ++ d) s.nextId :=
  ⟨rfl, rfl, rfl⟩

theorem appendTrans_user_parts (s : SessionState) (d : String) :
    (appendTrans s .user d).outputTrans = s.outputTrans ∧
    (appendTrans s .user d).inputTrans = s.inputTrans ++ d ∧
    (appendTrans s .user d).messages =
      updateLiveMessage s.messages .user (s.inputTrans ++ d) s.nextId :=
  ⟨rfl, rfl, rfl⟩

theorem accum_model (s : SessionState) : accum s .model = s.outputTrans := rfl

theorem accum_user (s : SessionState) : accum s .user = s.inputTrans := rfl

theorem clearAccum_model (s : SessionState) :
    clearAccum s .model = { s with outputTrans := "" } := rfl

theorem clearAccum_user (s : SessionState) :
    clearAccum s .user = { s with inputTrans := "" } := rfl

theorem finalizeRole_pos (s : SessionState) (role : Role)
    (h : accum s role ≠ "") :
    (finalizeRole s role).1 =
      { clearAccum s role with
          messages := finalizeMessage s.messages role (accum s role) } := by
  simp only [finalizeRole]
  rw [if_pos h]

theorem finalizeRole_neg (s : SessionState) (role : Role)
    (h : accum s role = "") : finalizeRole s role = (s, none) := by
  simp only [finalizeRole, h]
  simp

/-- C5 counterexample: after an output delta "a" and an input delta "u" the
model role has an open buffer (accumulator "a" and an open model message),
yet the next model append creates a second, new model message (fresh id 2)
instead of updating the existing open one in place. -/
theorem C5_counterexample :
    accum (handleEvents initSession
      [(0, outputDeltaMsg "a"), (0, inputDeltaMsg "u")]) .model = "a" ∧
    (∃ m ∈ (handleEvents initSession
        [(0, outputDeltaMsg "a"), (0, inputDeltaMsg "u")]).messages,
      m.role = .model ∧ m.isFinal = false) ∧
    (handleEvents initSession
        [(0, outputDeltaMsg "a"), (0, inputDeltaMsg "u"),
          (0, outputDeltaMsg "b")]).messages =
      [⟨0, .model, "a", false⟩, ⟨1, .user, "u", false⟩,
        ⟨2, .model, "ab", false⟩] := by
  decide

/-- C5 (amended): when the role's open message is the last message of the
list, append concatenates the delta onto the role's accumulator and updates
that message in place (same id, `isFinal = false`, no new message); in
particular `append(role,"a")` followed immediately by `append(role,"b")`
yields exactly one open message with text "ab".  When the last message does
not belong to the role (the roles' deltas interleaved), a new message is
appended instead — see the counterexample. -/
theorem C5_append_in_place (s : SessionState) (role : Role) (delta : String)
    (m : ChatMessage) (hlast : s.messages.getLast? = some m)
    (hrole : m.role = role) (hopen : m.isFinal = false) :
    (appendTrans s role delta).messages =
      s.messages.dropLast ++ [{ m with text := accum s role ++ delta }] ∧
    (appendTrans s role delta).messages.length = s.messages.length ∧
    accum (appendTrans s role delta) role = accum s role ++ delta ∧
    (handleEvents initSession
        [(0, outputDeltaMsg "a"), (0, outputDeltaMsg "b")]).messages =
      [⟨0, .model, "ab", false⟩] := by
  have hupd : updateLiveMessage s.messages role (accum s role ++ delta)
      s.nextId = s.messages.dropLast ++ [{ m with text := accum s role ++ delta }] := by
    simp only [updateLiveMessage, hlast, if_pos (And.intro hrole hopen)]
  have hne : s.messages ≠ [] := by
    intro h
    rw [h] at hlast
    simp [List.getLast?] at hlast
  have hlen : (s.messages.dropLast ++
      [{ m with text := accum s role ++ delta }]).length = s.messages.length := by
    have h1 : 1 ≤ s.messages.length := by
      cases hms : s.messages with
      | nil => exact absurd hms hne
      | cons x xs => simp
    simp only [List.length_append, List.length_dropLast, List.length_singleton]
    omega
  refine ⟨?_, ?_, ?_, by decide⟩
  · cases role with
    | model => simpa [appendTrans, accum] using hupd
    | user => simpa [appendTrans, accum] using hupd
  · cases role with
    | model =>
        have h1 := hupd
        simp only [accum] at h1 hlen
        simp only [appendTrans]
        rw [h1]
        exact hlen
    | user =>
        have h1 := hupd
        simp only [accum] at h1 hlen
        simp only [appendTrans]
        rw [h1]
        exact hlen
  · cases role with
    | model => simp [appendTrans, accum]
    | user => simp [appendTrans, accum]

theorem C5_append_in_place_witness :
    (appendTrans (handleEvents initSession [(0, outputDeltaMsg "a")])
        .model "b").messages =
      (handleEvents initSession
        [(0, outputDeltaMsg "a")]).messages.dropLast ++
        [{ (⟨0, .model, "a", false⟩ : ChatMessage) with
            text := accum (handleEvents initSession
              [(0, outputDeltaMsg "a")]) .model ++ "b" }] ∧
    (appendTrans (handleEvents initSession [(0, outputDeltaMsg "a")])
        .model "b").messages.length =
      (handleEvents initSession [(0, outputDeltaMsg "a")]).messages.length ∧
    accum (appendTrans (handleEvents initSession [(0, outputDeltaMsg "a")])
        .model "b") .model =
      accum (handleEvents initSession [(0, outputDeltaMsg "a")]) .model ++
        "b" ∧
    (handleEvents initSession
        [(0, outputDeltaMsg "a"), (0, outputDeltaMsg "b")]).messages =
      [⟨0, .model, "ab", false⟩] :=
  C5_append_in_place (handleEvents initSession [(0, outputDeltaMsg "a")])
    .model "b" ⟨0, .model, "a", false⟩ (by decide) rfl rfl

/-- C6 counterexample: with an open model message "a" and an open user
message "u" (both accumulators non-empty), a turn-complete flips only the
user message — the one at the last list position; the model message is left
with `isFinal = false`, contradicting "each message's isFinal flipped to
true". -/
theorem C6_counterexample :
    accum (handleEvents initSession
      [(0, outputDeltaMsg "a"), (0, inputDeltaMsg "u")]) .model ≠ "" ∧
    accum (handleEvents initSession
      [(0, outputDeltaMsg "a"), (0, inputDeltaMsg "u")]) .user ≠ "" ∧
    (handleEvents initSession
        [(0, outputDeltaMsg "a"), (0, inputDeltaMsg "u"),
          (0, turnCompleteMsg)]).messages =
      [⟨0, .model, "a", false⟩, ⟨1, .user, "u", true⟩] := by
  decide

/-- C6 (amended): when a turn-complete arrives while both roles have open
buffers (both accumulators non-empty, the two open messages sitting at the
end of the list), both accumulators are cleared within that single event,
but only the message at the last list position is flipped to final (with its
role's accumulated text); the other role's open message remains open.  A
turn-complete when neither accumulator is non-empty changes nothing. -/
theorem C6_turnComplete_both_roles (s : SessionState) (now : ℚ)
    (ms : List ChatMessage) (m1 m2 : ChatMessage)
    (hmsgs : s.messages = ms ++ [m1, m2]) (hners : m1.role ≠ m2.role)
    (h1 : m1.isFinal = false) (h2 : m2.isFinal = false)
    (hout : s.outputTrans ≠ "") (hin : s.inputTrans ≠ "") :
    (handleMessage s now turnCompleteMsg).outputTrans = "" ∧
    (handleMessage s now turnCompleteMsg).inputTrans = "" ∧
    (handleMessage s now turnCompleteMsg).messages =
      ms ++ [m1, { m2 with text := accum s m2.role, isFinal := true }] ∧
    (∀ t : SessionState, t.outputTrans = "" → t.inputTrans = "" →
      handleMessage t now turnCompleteMsg = t) := by
  have hconcat : s.messages = (ms ++ [m1]) ++ [m2] := by
    rw [hmsgs]; simp
  have hnoop : ∀ t : SessionState, t.outputTrans = "" → t.inputTrans = "" →
      handleMessage t now turnCompleteMsg = t := by
    intro t hto hti
    have hm : accum t .model = "" := hto
    have hu : accum t .user = "" := hti
    simp [handleMessage, turnCompleteMsg, audioStage, transStage,
      turnCompleteStage, interruptedStage, finalizeRole, hm, hu]
  have hred : handleMessage s now turnCompleteMsg =
      (finalizeRole (finalizeRole s .model).1 .user).1 := by
    simp [handleMessage, turnCompleteMsg, audioStage, transStage,
      turnCompleteStage, interruptedStage]
  cases hm2 : m2.role with
  | model =>
      -- finalizeRole for model flips m2; finalizeRole for user then no-ops
      have hfm : finalizeMessage s.messages .model s.outputTrans =
          (ms ++ [m1]) ++ [{ m2 with text := s.outputTrans, isFinal := true }] := by
        rw [hconcat]
        exact finalizeMessage_concat_pos _ _ _ _ hm2 h2
      have hfr : (finalizeRole s .model).1 =
          { s with
              outputTrans := "",
              messages := (ms ++ [m1]) ++
                [{ m2 with text := s.outputTrans, isFinal := true }] } := by
        rw [finalizeRole_pos s .model (by rw [accum_model]; exact hout),
          accum_model, clearAccum_model, hfm]
      have hfu : finalizeMessage ((ms ++ [m1]) ++
          [{ m2 with text := s.outputTrans, isFinal := true }]) .user
            s.inputTrans =
          (ms ++ [m1]) ++ [{ m2 with text := s.outputTrans, isFinal := true }] :=
        finalizeMessage_concat_neg _ _ _ _ (by simp)
      have hstep : (finalizeRole
          ({ s with
              outputTrans := "",
              messages := (ms ++ [m1]) ++
                [{ m2 with text := s.outputTrans, isFinal := true }] } :
            SessionState) .user).1 =
          { s with
              outputTrans := "",
              inputTrans := "",
              messages := (ms ++ [m1]) ++
                [{ m2 with text := s.outputTrans, isFinal := true }] } := by
        have hfu2 : finalizeMessage
            (ms ++ [m1, { m2 with text := s.outputTrans, isFinal := true }])
            .user s.inputTrans =
            ms ++ [m1, { m2 with text := s.outputTrans, isFinal := true }] := by
          simpa using hfu
        rw [finalizeRole_pos _ .user (by rw [accum_user]; exact hin)]
        simp [accum, clearAccum, hfu2]
      have hfull : handleMessage s now turnCompleteMsg =
          { s with
              outputTrans := "",
              inputTrans := "",
              messages := (ms ++ [m1]) ++
                [{ m2 with text := s.outputTrans, isFinal := true }] } := by
        rw [hred, hfr, hstep]
      refine ⟨by rw [hfull], by rw [hfull], ?_, hnoop⟩
      rw [hfull, hm2, accum_model]
      simp
  | user =>
      -- finalizeRole for model no-ops; finalizeRole for user flips m2
      have hfm : finalizeMessage s.messages .model s.outputTrans =
          s.messages := by
        rw [hconcat]
        exact finalizeMessage_concat_neg _ _ _ _ (by simp [hm2])
      have hfr : (finalizeRole s .model).1 = { s with outputTrans := "" } := by
        rw [finalizeRole_pos s .model (by rw [accum_model]; exact hout),
          accum_model, clearAccum_model, hfm]
      have hfu : finalizeMessage s.messages .user s.inputTrans =
          (ms ++ [m1]) ++ [{ m2 with text := s.inputTrans, isFinal := true }] := by
        rw [hconcat]
        exact finalizeMessage_concat_pos _ _ _ _ hm2 h2
      have hstep : (finalizeRole
          ({ s with outputTrans := "" } : SessionState) .user).1 =
          { s with
              outputTrans := "",
              inputTrans := "",
              messages := (ms ++ [m1]) ++
                [{ m2 with text := s.inputTrans, isFinal := true }] } := by
        have hfu2 : finalizeMessage s.messages .user s.inputTrans =
            ms ++ [m1, { m2 with text := s.inputTrans, isFinal := true }] := by
          simpa using hfu
        rw [finalizeRole_pos _ .user (by rw [accum_user]; exact hin)]
        simp [accum, clearAccum, hfu2]
      have hfull : handleMessage s now turnCompleteMsg =
          { s with
              outputTrans := "",
              inputTrans := "",
              messages := (ms ++ [m1]) ++
                [{ m2 with text := s.inputTrans, isFinal := true }] } := by
        rw [hred, hfr, hstep]
      refine ⟨by rw [hfull], by rw [hfull], ?_, hnoop⟩
      rw [hfull, hm2, accum_user]
      simp

theorem C6_turnComplete_both_roles_witness :
    (handleMessage (handleEvents initSession
        [(0, outputDeltaMsg "a"), (0, inputDeltaMsg "u")]) 0
        turnCompleteMsg).outputTrans = "" ∧
    (handleMessage (handleEvents initSession
        [(0, outputDeltaMsg "a"), (0, inputDeltaMsg "u")]) 0
        turnCompleteMsg).inputTrans = "" ∧
    (handleMessage (handleEvents initSession
        [(0, outputDeltaMsg "a"), (0, inputDeltaMsg "u")]) 0
        turnCompleteMsg).messages =
      [] ++ [⟨0, .model, "a", false⟩,
        { (⟨1, .user, "u", false⟩ : ChatMessage) with
            text := accum (handleEvents initSession
              [(0, outputDeltaMsg "a"), (0, inputDeltaMsg "u")])
              (⟨1, .user, "u", false⟩ : ChatMessage).role,
            isFinal := true }] ∧
    (∀ t : SessionState, t.outputTrans = "" → t.inputTrans = "" →
      handleMessage t 0 turnCompleteMsg = t) :=
  C6_turnComplete_both_roles
    (handleEvents initSession [(0, outputDeltaMsg "a"), (0, inputDeltaMsg "u")])
    0 [] ⟨0, .model, "a", false⟩ ⟨1, .user, "u", false⟩ (by decide)
    (by decide) rfl rfl (by decide) (by decide)

/-- C7: `finalize(role)` with no open buffer for that role (empty
accumulator) returns none and leaves the session state unchanged, and
finalize is idempotent: an immediate second call finalizes nothing, changes
nothing and returns none. -/
theorem C7_finalize_idempotent (s : SessionState) (role : Role) :
    (accum s role = "" → finalizeRole s role = (s, none)) ∧
    finalizeRole (finalizeRole s role).1 role =
      ((finalizeRole s role).1, none) := by
  have hfin : ∀ t : SessionState, ∀ ro : Role, accum t ro = "" →
      finalizeRole t ro = (t, none) := by
    intro t ro h
    simp only [finalizeRole, h]
    simp
  constructor
  · exact hfin s role
  · by_cases h : accum s role = ""
    · rw [hfin s role h]
      exact hfin s role h
    · have hcleared : accum (finalizeRole s role).1 role = "" := by
        rw [show finalizeRole s role =
            ({ clearAccum s role with
                messages := finalizeMessage s.messages role (accum s role) },
              finalizedOf s.messages role (accum s role)) from by
          simp only [finalizeRole]
          rw [if_pos h]]
        cases role with
        | model => simp [accum, clearAccum]
        | user => simp [accum, clearAccum]
      exact hfin _ role hcleared

theorem C7_finalize_idempotent_witness :
    (finalizeRole initSession .model = (initSession, none)) ∧
    finalizeRole (finalizeRole initSession .model).1 .model =
      ((finalizeRole initSession .model).1, none) :=
  ⟨(C7_finalize_idempotent initSession .model).1 rfl,
    (C7_finalize_idempotent initSession .model).2⟩

/-- C10: `updateLiveMessage` and `finalizeMessage` modify at most the last
element of the message list: every entry at a position other than the last
is unchanged (same id, role, text, isFinal); the list never shrinks, so a
message that is no longer last — in particular a finalized one — is never
mutated again. -/
theorem C10_frame_effect (prev : List ChatMessage) (role : Role)
    (text : String) (freshId : Nat) (i : Nat) (hi : i + 1 < prev.length) :
    (updateLiveMessage prev role text freshId)[i]? = prev[i]? ∧
    (finalizeMessage prev role text)[i]? = prev[i]? ∧
    prev.length ≤ (updateLiveMessage prev role text freshId).length ∧
    (finalizeMessage prev role text).length = prev.length := by
  rcases List.eq_nil_or_concat' prev with rfl | ⟨l, a, rfl⟩
  · simp at hi
  · have hil : i < l.length := by
      simp only [List.length_append, List.length_singleton] at hi
      omega
    have hget : ∀ l₂ : List ChatMessage, (l ++ l₂)[i]? = l[i]? := by
      intro l₂
      exact List.getElem?_append_left hil
    refine ⟨?_, ?_, ?_, ?_⟩
    · by_cases h : a.role = role ∧ a.isFinal = false
      · rw [updateLiveMessage_concat_pos l a role text freshId h.1 h.2,
          hget, hget]
      · rw [updateLiveMessage_concat_neg l a role text freshId h,
          List.append_assoc, hget, hget]
    · by_cases h : a.role = role ∧ a.isFinal = false
      · rw [finalizeMessage_concat_pos l a role text h.1 h.2, hget, hget]
      · rw [finalizeMessage_concat_neg l a role text h]
    · by_cases h : a.role = role ∧ a.isFinal = false
      · rw [updateLiveMessage_concat_pos l a role text freshId h.1 h.2]
        simp
      · rw [updateLiveMessage_concat_neg l a role text freshId h]
        simp
    · by_cases h : a.role = role ∧ a.isFinal = false
      · rw [finalizeMessage_concat_pos l a role text h.1 h.2]
        simp
      · rw [finalizeMessage_concat_neg l a role text h]

theorem C10_frame_effect_witness :
    (updateLiveMessage [⟨0, .model, "a", true⟩, ⟨1, .user, "u", false⟩]
        .user "uv" 5)[0]? =
      ([⟨0, .model, "a", true⟩, ⟨1, .user, "u", false⟩] :
        List ChatMessage)[0]? ∧
    (finalizeMessage [⟨0, .model, "a", true⟩, ⟨1, .user, "u", false⟩]
        .user "uv")[0]? =
      ([⟨0, .model, "a", true⟩, ⟨1, .user, "u", false⟩] :
        List ChatMessage)[0]? ∧
    ([⟨0, .model, "a", true⟩, ⟨1, .user, "u", false⟩] :
        List ChatMessage).length ≤
      (updateLiveMessage [⟨0, .model, "a", true⟩, ⟨1, .user, "u", false⟩]
        .user "uv" 5).length ∧
    (finalizeMessage [⟨0, .model, "a", true⟩, ⟨1, .user, "u", false⟩]
        .user "uv").length =
      ([⟨0, .model, "a", true⟩, ⟨1, .user, "u", false⟩] :
        List ChatMessage).length :=
  C10_frame_effect [⟨0, .model, "a", true⟩, ⟨1, .user, "u", false⟩]
    .user "uv" 5 0 (by decide)

/-- The other of the two roles. -/
def otherRole : Role → Role
  | .user => .model
  | .model => .user

/-- `singleRole r msg`: the message carries no transcription delta of the
role other than `r` (audio, turn-complete and interrupted parts are
unrestricted). -/
def singleRole (r : Role) (msg : LiveServerMessage) : Prop :=
  match r with
  | .model => msg.inputTranscription = none
  | .user => msg.outputTranscription = none

instance singleRoleDecidable (r : Role) (msg : LiveServerMessage) :
    Decidable (singleRole r msg) := by
  cases r with
  | user => exact decidable_of_iff (msg.outputTranscription = none) Iff.rfl
  | model => exact decidable_of_iff (msg.inputTranscription = none) Iff.rfl

/-- Invariant maintained by single-role event streams: every message belongs
to `r`, every message except possibly the last is final, and the other
role's accumulator is empty. -/
def SingleInv (r : Role) (s : SessionState) : Prop :=
  (∀ m ∈ s.messages, m.role = r) ∧
  (∀ m ∈ s.messages.dropLast, m.isFinal = true) ∧
  accum s (otherRole r) = ""

theorem updateLiveMessage_single (prev : List ChatMessage) (r : Role)
    (text : String) (freshId : Nat)
    (hroles : ∀ m ∈ prev, m.role = r)
    (hfin : ∀ m ∈ prev.dropLast, m.isFinal = true) :
    (∀ m ∈ updateLiveMessage prev r text freshId, m.role = r) ∧
    (∀ m ∈ (updateLiveMessage prev r text freshId).dropLast,
      m.isFinal = true) := by
  rcases List.eq_nil_or_concat' prev with rfl | ⟨l, a, rfl⟩
  · rw [updateLiveMessage_nil]
    constructor
    · intro m hm
      simp at hm
      simp [hm]
    · intro m hm
      simp at hm
  · have hrole_a : a.role = r := hroles a (by simp)
    by_cases h : a.role = r ∧ a.isFinal = false
    · rw [updateLiveMessage_concat_pos l a r text freshId h.1 h.2]
      constructor
      · intro m hm
        rcases List.mem_append.mp hm with h1 | h1
        · exact hroles m (List.mem_append.mpr (Or.inl h1))
        · simp at h1
          subst h1
          exact hrole_a
      · intro m hm
        rw [List.dropLast_concat] at hm
        exact hfin m (by rw [List.dropLast_concat]; exact hm)
    · have hafin : a.isFinal = true := by
        rcases Bool.eq_false_or_eq_true a.isFinal with hb | hb
        · exact hb
        · exact absurd ⟨hrole_a, hb⟩ h
      rw [updateLiveMessage_concat_neg l a r text freshId h]
      constructor
      · intro m hm
        rcases List.mem_append.mp hm with h1 | h1
        · exact hroles m h1
        · simp at h1
          subst h1
          rfl
      · intro m hm
        rw [List.dropLast_concat] at hm
        rcases List.mem_append.mp hm with h1 | h1
        · exact hfin m (by rw [List.dropLast_concat]; exact h1)
        · simp at h1
          subst h1
          exact hafin

theorem finalizeMessage_single (prev : List ChatMessage) (r ro : Role)
    (text : String)
    (hroles : ∀ m ∈ prev, m.role = r)
    (hfin : ∀ m ∈ prev.dropLast, m.isFinal = true) :
    (∀ m ∈ finalizeMessage prev ro text, m.role = r) ∧
    (∀ m ∈ (finalizeMessage prev ro text).dropLast, m.isFinal = true) := by
  rcases List.eq_nil_or_concat' prev with rfl | ⟨l, a, rfl⟩
  · rw [finalizeMessage_nil]
    exact ⟨hroles, hfin⟩
  · by_cases h : a.role = ro ∧ a.isFinal = false
    · rw [finalizeMessage_concat_pos l a ro text h.1 h.2]
      constructor
      · intro m hm
        rcases List.mem_append.mp hm with h1 | h1
        · exact hroles m (List.mem_append.mpr (Or.inl h1))
        · simp at h1
          subst h1
          exact hroles a (by simp)
      · intro m hm
        rw [List.dropLast_concat] at hm
        exact hfin m (by rw [List.dropLast_concat]; exact hm)
    · rw [finalizeMessage_concat_neg l a ro text h]
      exact ⟨hroles, hfin⟩

theorem singleInv_step (r : Role) (s : SessionState) (now : ℚ)
    (msg : LiveServerMessage) (hmsg : singleRole r msg)
    (hinv : SingleInv r s) : SingleInv r (handleMessage s now msg) := by
  obtain ⟨hroles, hfin, hother⟩ := hinv
  -- audio stage: messages and accumulators unchanged
  have h1 : SingleInv r (audioStage s now msg.audio) := by
    obtain ⟨ha, hb, hc⟩ := audioStage_parts s now msg.audio
    refine ⟨?_, ?_, ?_⟩
    · rw [ha]; exact hroles
    · rw [ha]; exact hfin
    · cases r <;> simp only [otherRole, accum] at hother ⊢ <;>
        rw [hb] at * <;> rw [hc] at * <;> assumption
  -- the role-r transcription stage preserves the invariant, the other
  -- role's stage is the identity
  have happend : ∀ t : SessionState, SingleInv r t → ∀ d : String,
      SingleInv r (appendTrans t r d) := by
    intro t ⟨htr, htf, hto⟩ d
    cases r with
    | model =>
        obtain ⟨hx, hy, hz⟩ := appendTrans_model_parts t d
        refine ⟨?_, ?_, ?_⟩
        · rw [hz]
          exact (updateLiveMessage_single t.messages .model _ _ htr htf).1
        · rw [hz]
          exact (updateLiveMessage_single t.messages .model _ _ htr htf).2
        · simp only [otherRole, accum] at hto ⊢
          rw [hy]
          exact hto
    | user =>
        obtain ⟨hx, hy, hz⟩ := appendTrans_user_parts t d
        refine ⟨?_, ?_, ?_⟩
        · rw [hz]
          exact (updateLiveMessage_single t.messages .user _ _ htr htf).1
        · rw [hz]
          exact (updateLiveMessage_single t.messages .user _ _ htr htf).2
        · simp only [otherRole, accum] at hto ⊢
          rw [hx]
          exact hto
  have h2 : SingleInv r (transStage (audioStage s now msg.audio)
      msg.outputTranscription .model) := by
    cases r with
    | model =>
        cases ho : msg.outputTranscription with
        | none => simpa [transStage, ho] using h1
        | some d =>
            simp only [transStage, ho]
            exact happend _ h1 d
    | user =>
        have : msg.outputTranscription = none := hmsg
        simpa [transStage, this] using h1
  have h3 : SingleInv r (transStage (transStage (audioStage s now msg.audio)
      msg.outputTranscription .model) msg.inputTranscription .user) := by
    cases r with
    | user =>
        cases ho : msg.inputTranscription with
        | none => simpa [transStage, ho] using h2
        | some d =>
            simp only [transStage, ho]
            exact happend _ h2 d
    | model =>
        have : msg.inputTranscription = none := hmsg
        simpa [transStage, this] using h2
  -- turn-complete stage
  have hfinrole : ∀ t : SessionState, SingleInv r t → ∀ ro : Role,
      SingleInv r (finalizeRole t ro).1 := by
    intro t ⟨htr, htf, hto⟩ ro
    by_cases hacc : accum t ro = ""
    · rw [finalizeRole_neg t ro hacc]
      exact ⟨htr, htf, hto⟩
    · rw [finalizeRole_pos t ro hacc]
      refine ⟨?_, ?_, ?_⟩
      · exact (finalizeMessage_single t.messages r ro _ htr htf).1
      · exact (finalizeMessage_single t.messages r ro _ htr htf).2
      · cases r <;> cases ro <;>
          simp only [otherRole, accum, clearAccum] at hto ⊢ <;> assumption
  have h4 : SingleInv r (turnCompleteStage (transStage (transStage
      (audioStage s now msg.audio) msg.outputTranscription .model)
      msg.inputTranscription .user) msg.turnComplete) := by
    cases htc : msg.turnComplete with
    | false => simpa [turnCompleteStage] using h3
    | true =>
        simp only [turnCompleteStage, if_pos]
        exact hfinrole _ (hfinrole _ h3 .model) .user
  -- interrupted stage
  cases hint : msg.interrupted with
  | false =>
      simpa [handleMessage, interruptedStage, hint] using h4
  | true =>
      obtain ⟨htr, htf, hto⟩ := h4
      simp only [handleMessage, interruptedStage, hint, if_pos]
      refine ⟨htr, htf, ?_⟩
      cases r <;> simp only [otherRole, accum] at hto ⊢ <;>
        first
          | rfl
          | exact hto

theorem singleInv_events (r : Role) (evs : List (ℚ × LiveServerMessage))
    (h : ∀ e ∈ evs, singleRole r e.2) :
    ∀ s : SessionState, SingleInv r s → SingleInv r (handleEvents s evs) := by
  induction evs with
  | nil => intro s hs; exact hs
  | cons e rest ih =>
      intro s hs
      obtain ⟨now, msg⟩ := e
      have h1 : singleRole r msg := h _ (List.mem_cons_self _ _)
      have h2 : ∀ e' ∈ rest, singleRole r e'.2 :=
        fun e' he' => h e' (List.mem_cons_of_mem _ he')
      exact ih h2 _ (singleInv_step r s now msg h1 hs)

/-- C8 counterexample: the reachable state after the deltas
model "a", user "u", model "b" holds two open (`isFinal = false`) model
messages at once, and the earlier one (position 0) is not the most recent
model message — both parts of the claimed invariant fail. -/
theorem C8_counterexample :
    (handleEvents initSession
        [(0, outputDeltaMsg "a"), (0, inputDeltaMsg "u"),
          (0, outputDeltaMsg "b")]).messages =
      [⟨0, .model, "a", false⟩, ⟨1, .user, "u", false⟩,
        ⟨2, .model, "ab", false⟩] ∧
    (handleEvents initSession
        [(0, outputDeltaMsg "a"), (0, inputDeltaMsg "u"),
          (0, outputDeltaMsg "b")]).messages.countP
        (fun m => decide (m.role = .model) && !m.isFinal) = 2 := by
  decide

/-- C8 (amended): for event sequences all of whose transcript deltas belong
to a single role, at every reachable state every message except possibly the
last is final, any open message is the last message of the list, and each
role has at most one open message — necessarily the most recent message of
its role.  When the two roles' deltas interleave, a role can accumulate
several open messages (see counterexample). -/
theorem C8_open_message_invariant (r : Role)
    (evs : List (ℚ × LiveServerMessage))
    (h : ∀ e ∈ evs, singleRole r e.2) :
    (∀ m ∈ (handleEvents initSession evs).messages.dropLast,
      m.isFinal = true) ∧
    (∀ m ∈ (handleEvents initSession evs).messages, m.isFinal = false →
      (handleEvents initSession evs).messages.getLast? = some m) ∧
    (∀ ro : Role, (handleEvents initSession evs).messages.countP
        (fun m => decide (m.role = ro) && !m.isFinal) ≤ 1) := by
  have hinv : SingleInv r (handleEvents initSession evs) :=
    singleInv_events r evs h initSession
      ⟨by intro m hm; simp [initSession] at hm,
        by intro m hm; simp [initSession] at hm,
        by cases r <;> rfl⟩
  obtain ⟨hroles, hfin, hother⟩ := hinv
  refine ⟨hfin, ?_, ?_⟩
  · intro m hm hopen
    rcases List.eq_nil_or_concat'
        (handleEvents initSession evs).messages with hnil | ⟨l, a, hla⟩
    · rw [hnil] at hm
      simp at hm
    · rw [hla] at hm ⊢
      rcases List.mem_append.mp hm with h1 | h1
      · have := hfin m (by rw [hla, List.dropLast_concat]; exact h1)
        rw [this] at hopen
        exact absurd hopen (by simp)
      · simp at h1
        subst h1
        exact List.getLast?_concat _
  · intro ro
    rcases List.eq_nil_or_concat'
        (handleEvents initSession evs).messages with hnil | ⟨l, a, hla⟩
    · rw [hnil]
      simp
    · rw [hla, List.countP_append]
      have hzero : l.countP (fun m => decide (m.role = ro) && !m.isFinal)
          = 0 := by
        rw [List.countP_eq_zero]
        intro m hml
        have := hfin m (by rw [hla, List.dropLast_concat]; exact hml)
        simp [this]
      rw [hzero]
      have : List.countP (fun m => decide (m.role = ro) && !m.isFinal) [a]
          ≤ 1 := by
        rcases hb : (fun m => decide (m.role = ro) && !m.isFinal) a
          with _ | _
        · simp [List.countP_cons, hb]
        · simp [List.countP_cons, hb]
      omega

theorem C8_open_message_invariant_witness :
    (∀ m ∈ (handleEvents initSession
        [(0, outputDeltaMsg "a"), (0, turnCompleteMsg),
          (0, outputDeltaMsg "b")]).messages.dropLast, m.isFinal = true) ∧
    (∀ m ∈ (handleEvents initSession
        [(0, outputDeltaMsg "a"), (0, turnCompleteMsg),
          (0, outputDeltaMsg "b")]).messages, m.isFinal = false →
      (handleEvents initSession
        [(0, outputDeltaMsg "a"), (0, turnCompleteMsg),
          (0, outputDeltaMsg "b")]).messages.getLast? = some m) ∧
    (∀ ro : Role, (handleEvents initSession
        [(0, outputDeltaMsg "a"), (0, turnCompleteMsg),
          (0, outputDeltaMsg "b")]).messages.countP
        (fun m => decide (m.role = ro) && !m.isFinal) ≤ 1) :=
  C8_open_message_invariant .model
    [(0, outputDeltaMsg "a"), (0, turnCompleteMsg), (0, outputDeltaMsg "b")]
    (by decide)

/-- The model-role (output) transcription deltas carried by an event list,
in arrival order. -/
def modelDeltas (evs : List (ℚ × LiveServerMessage)) : List String :=
  evs.filterMap fun e => e.2.outputTranscription

/-- `t` is the concatenation of some final segment of the delta list `ds`
(the shape of a transcription accumulator). -/
def accumFrom (ds : List String) (t : String) : Prop :=
  ∃ l lead : List String, lead ++ l = ds ∧ t = String.join l

/-- `t` is the concatenation of some contiguous run of the delta list `ds`. -/
def builtFrom (ds : List String) (t : String) : Prop :=
  ∃ l lead trail : List String, lead ++ l ++ trail = ds ∧ t = String.join l

theorem join_concat (l : List String) (d : String) :
    String.join (l ++ [d]) = String.join l ++ d := by
  simp [String.join, List.foldl_append]

theorem accumFrom_empty (ds : List String) : accumFrom ds "" :=
  ⟨[], ds, by simp, rfl⟩

theorem accumFrom_push {ds : List String} {t : String}
    (h : accumFrom ds t) (d : String) : accumFrom (ds ++ [d]) (t ++ d) := by
  obtain ⟨l, lead, h1, h2⟩ := h
  exact ⟨l ++ [d], lead, by rw [← List.append_assoc, h1],
    by rw [join_concat, h2]⟩

theorem builtFrom_of_accumFrom {ds : List String} {t : String}
    (h : accumFrom ds t) : builtFrom ds t := by
  obtain ⟨l, lead, h1, h2⟩ := h
  exact ⟨l, lead, [], by rw [List.append_nil]; exact h1, h2⟩

theorem builtFrom_mono {ds : List String} {t : String}
    (h : builtFrom ds t) (es : List String) : builtFrom (ds ++ es) t := by
  obtain ⟨l, lead, trail, h1, h2⟩ := h
  exact ⟨l, lead, trail ++ es, by rw [← h1]; simp, h2⟩

theorem modelDeltas_cons (e : ℚ × LiveServerMessage)
    (rest : List (ℚ × LiveServerMessage)) :
    modelDeltas (e :: rest) =
      e.2.outputTranscription.toList ++ modelDeltas rest := by
  cases h : e.2.outputTranscription with
  | none => simp [modelDeltas, List.filterMap_cons, h]
  | some d => simp [modelDeltas, List.filterMap_cons, h]

theorem transStage_model_track (t : SessionState) (dopt : Option String)
    (ds : List String) (P : ChatMessage → Prop)
    (hacc : accumFrom ds t.outputTrans)
    (hmsgs : ∀ m ∈ t.messages, m.isFinal = true → m.role = .model →
      P m ∨ builtFrom ds m.text) :
    accumFrom (ds ++ dopt.toList) (transStage t dopt .model).outputTrans ∧
    (∀ m ∈ (transStage t dopt .model).messages, m.isFinal = true →
      m.role = .model → P m ∨ builtFrom (ds ++ dopt.toList) m.text) := by
  cases ho : dopt with
  | none =>
      simp only [transStage, Option.toList, List.append_nil]
      exact ⟨hacc, hmsgs⟩
  | some d =>
      simp only [transStage, Option.toList]
      obtain ⟨hx, _, hz⟩ := appendTrans_model_parts t d
      constructor
      · rw [hx]
        exact accumFrom_push hacc d
      · intro m hm hf hr
        rw [hz] at hm
        rcases mem_updateLiveMessage m _ _ _ _ hm with h1 | h1
        · rcases hmsgs m h1 hf hr with hP | hB
          · exact Or.inl hP
          · exact Or.inr (builtFrom_mono hB [d])
        · rw [h1] at hf
          exact absurd hf (by simp)

theorem transStage_user_track (t : SessionState) (dopt : Option String)
    (ds : List String) (P : ChatMessage → Prop)
    (hacc : accumFrom ds t.outputTrans)
    (hmsgs : ∀ m ∈ t.messages, m.isFinal = true → m.role = .model →
      P m ∨ builtFrom ds m.text) :
    accumFrom ds (transStage t dopt .user).outputTrans ∧
    (∀ m ∈ (transStage t dopt .user).messages, m.isFinal = true →
      m.role = .model → P m ∨ builtFrom ds m.text) := by
  cases ho : dopt with
  | none =>
      simp only [transStage]
      exact ⟨hacc, hmsgs⟩
  | some d =>
      simp only [transStage]
      obtain ⟨hx, _, hz⟩ := appendTrans_user_parts t d
      constructor
      · rw [hx]
        exact hacc
      · intro m hm hf hr
        rw [hz] at hm
        rcases mem_updateLiveMessage m _ _ _ _ hm with h1 | h1
        · exact hmsgs m h1 hf hr
        · rw [h1] at hf
          exact absurd hf (by simp)

theorem finalizeRole_model_parts (t : SessionState) :
    (finalizeRole t .model).1.outputTrans = "" ∧
    (finalizeRole t .model).1.inputTrans = t.inputTrans ∧
    ((finalizeRole t .model).1.messages = t.messages ∨
      (finalizeRole t .model).1.messages =
        finalizeMessage t.messages .model t.outputTrans) := by
  by_cases h : accum t .model = ""
  · rw [finalizeRole_neg t .model h]
    exact ⟨h, rfl, Or.inl rfl⟩
  · rw [finalizeRole_pos t .model h]
    exact ⟨rfl, rfl, Or.inr rfl⟩

theorem finalizeRole_user_parts (t : SessionState) :
    (finalizeRole t .user).1.outputTrans = t.outputTrans ∧
    ((finalizeRole t .user).1.messages = t.messages ∨
      (finalizeRole t .user).1.messages =
        finalizeMessage t.messages .user t.inputTrans) := by
  by_cases h : accum t .user = ""
  · rw [finalizeRole_neg t .user h]
    exact ⟨rfl, Or.inl rfl⟩
  · rw [finalizeRole_pos t .user h]
    exact ⟨rfl, Or.inr rfl⟩

theorem turnCompleteStage_track (t : SessionState) (tc : Bool)
    (ds : List String) (P : ChatMessage → Prop)
    (hacc : accumFrom ds t.outputTrans)
    (hmsgs : ∀ m ∈ t.messages, m.isFinal = true → m.role = .model →
      P m ∨ builtFrom ds m.text) :
    accumFrom ds (turnCompleteStage t tc).outputTrans ∧
    (∀ m ∈ (turnCompleteStage t tc).messages, m.isFinal = true →
      m.role = .model → P m ∨ builtFrom ds m.text) := by
  cases tc with
  | false =>
      simp only [turnCompleteStage, Bool.false_eq_true, if_false]
      exact ⟨hacc, hmsgs⟩
  | true =>
      simp only [turnCompleteStage, if_true]
      obtain ⟨hu1o, _, hu1m⟩ := finalizeRole_model_parts t
      have hmsgs1 : ∀ m ∈ (finalizeRole t .model).1.messages,
          m.isFinal = true → m.role = .model →
          P m ∨ builtFrom ds m.text := by
        intro m hm hf hr
        rcases hu1m with he | he
        · rw [he] at hm
          exact hmsgs m hm hf hr
        · rw [he] at hm
          rcases mem_finalizeMessage m _ _ _ hm with h1 | h1
          · exact hmsgs m h1 hf hr
          · exact Or.inr (by rw [h1.2.2]; exact builtFrom_of_accumFrom hacc)
      obtain ⟨hu2o, hu2m⟩ := finalizeRole_user_parts (finalizeRole t .model).1
      constructor
      · rw [hu2o, hu1o]
        exact accumFrom_empty ds
      · intro m hm hf hr
        rcases hu2m with he | he
        · rw [he] at hm
          exact hmsgs1 m hm hf hr
        · rw [he] at hm
          rcases mem_finalizeMessage m _ _ _ hm with h1 | h1
          · exact hmsgs1 m h1 hf hr
          · rw [hr] at h1
            exact absurd h1.1 (by simp)

theorem interruptedStage_track (t : SessionState) (intr : Bool)
    (ds : List String) (P : ChatMessage → Prop)
    (hacc : accumFrom ds t.outputTrans)
    (hmsgs : ∀ m ∈ t.messages, m.isFinal = true → m.role = .model →
      P m ∨ builtFrom ds m.text) :
    accumFrom ds (interruptedStage t intr).outputTrans ∧
    (∀ m ∈ (interruptedStage t intr).messages, m.isFinal = true →
      m.role = .model → P m ∨ builtFrom ds m.text) := by
  cases intr with
  | false =>
      simp only [interruptedStage, Bool.false_eq_true, if_false]
      exact ⟨hacc, hmsgs⟩
  | true =>
      simp only [interruptedStage, if_true]
      exact ⟨accumFrom_empty ds, hmsgs⟩

theorem handleMessage_model_track (s : SessionState) (now : ℚ)
    (msg : LiveServerMessage) (ds : List String) (P : ChatMessage → Prop)
    (hacc : accumFrom ds s.outputTrans)
    (hmsgs : ∀ m ∈ s.messages, m.isFinal = true → m.role = .model →
      P m ∨ builtFrom ds m.text) :
    accumFrom (ds ++ msg.outputTranscription.toList)
      (handleMessage s now msg).outputTrans ∧
    (∀ m ∈ (handleMessage s now msg).messages, m.isFinal = true →
      m.role = .model →
      P m ∨ builtFrom (ds ++ msg.outputTranscription.toList) m.text) := by
  obtain ⟨ha1, ha2, _⟩ := audioStage_parts s now msg.audio
  have hacc1 : accumFrom ds (audioStage s now msg.audio).outputTrans := by
    rw [ha2]; exact hacc
  have hmsgs1 : ∀ m ∈ (audioStage s now msg.audio).messages,
      m.isFinal = true → m.role = .model → P m ∨ builtFrom ds m.text := by
    rw [ha1]; exact hmsgs
  obtain ⟨hacc2, hmsgs2⟩ := transStage_model_track _ msg.outputTranscription
    ds P hacc1 hmsgs1
  obtain ⟨hacc3, hmsgs3⟩ := transStage_user_track _ msg.inputTranscription
    (ds ++ msg.outputTranscription.toList) P hacc2 hmsgs2
  obtain ⟨hacc4, hmsgs4⟩ := turnCompleteStage_track _ msg.turnComplete
    (ds ++ msg.outputTranscription.toList) P hacc3 hmsgs3
  obtain ⟨hacc5, hmsgs5⟩ := interruptedStage_track _ msg.interrupted
    (ds ++ msg.outputTranscription.toList) P hacc4 hmsgs4
  exact ⟨hacc5, hmsgs5⟩

theorem handleEvents_model_track (evs : List (ℚ × LiveServerMessage))
    (P : ChatMessage → Prop) :
    ∀ (s : SessionState) (ds : List String),
    accumFrom ds s.outputTrans →
    (∀ m ∈ s.messages, m.isFinal = true → m.role = .model →
      P m ∨ builtFrom ds m.text) →
    ∀ m ∈ (handleEvents s evs).messages, m.isFinal = true →
      m.role = .model → P m ∨ builtFrom (ds ++ modelDeltas evs) m.text := by
  induction evs with
  | nil =>
      intro s ds hacc hmsgs m hm hf hr
      simpa [modelDeltas] using hmsgs m hm hf hr
  | cons e rest ih =>
      intro s ds hacc hmsgs m hm hf hr
      obtain ⟨now, msg⟩ := e
      obtain ⟨hacc', hmsgs'⟩ :=
        handleMessage_model_track s now msg ds P hacc hmsgs
      have := ih (handleMessage s now msg)
        (ds ++ msg.outputTranscription.toList) hacc' hmsgs' m hm hf hr
      rcases this with hP | hB
      · exact Or.inl hP
      · refine Or.inr ?_
        rw [modelDeltas_cons, ← List.append_assoc]
        exact hB

theorem interrupted_future (t : SessionState) (ht : t.outputTrans = "") :
    ∀ evs, ∀ m ∈ (handleEvents t evs).messages, m.isFinal = true →
      m.role = .model → m ∈ t.messages ∨ builtFrom (modelDeltas evs) m.text := by
  intro evs m hm hf hr
  have := handleEvents_model_track evs (fun m' => m' ∈ t.messages) t []
    (by rw [ht]; exact accumFrom_empty []) (fun m' hm' _ _ => Or.inl hm')
    m hm hf hr
  simpa using this

/-- C3: handling an `interrupted` event empties the scheduler's active source
set (every scheduled unit, played or not, is stopped and removed) and resets
its clock, discards the remote (model) role's transcription accumulator, and
sets the pose to listening; moreover, whatever events follow, every message
that is final with role model is either one already present right after the
interrupt was handled or has text assembled entirely from output deltas that
arrived after the event — never from the discarded buffered text. -/
theorem C3_interrupted (s : SessionState) (now : ℚ)
    (msg : LiveServerMessage) (hint : msg.interrupted = true) :
    (handleMessage s now msg).sched.audioSources = [] ∧
    (handleMessage s now msg).sched.nextStartTime = 0 ∧
    (handleMessage s now msg).outputTrans = "" ∧
    (handleMessage s now msg).pose = .listeningSide ∧
    ∀ evs, ∀ m ∈ (handleEvents (handleMessage s now msg) evs).messages,
      m.isFinal = true → m.role = .model →
      m ∈ (handleMessage s now msg).messages ∨
        builtFrom (modelDeltas evs) m.text := by
  have h1 : ∀ t : SessionState,
      (interruptedStage t true).sched.audioSources = [] ∧
      (interruptedStage t true).sched.nextStartTime = 0 ∧
      (interruptedStage t true).outputTrans = "" ∧
      (interruptedStage t true).pose = .listeningSide := by
    intro t
    simp [interruptedStage, stopAllAudio]
  have hmsg : handleMessage s now msg =
      interruptedStage (turnCompleteStage (transStage (transStage
        (audioStage s now msg.audio) msg.outputTranscription .model)
        msg.inputTranscription .user) msg.turnComplete) true := by
    simp only [handleMessage, hint]
  rw [hmsg]
  refine ⟨(h1 _).1, (h1 _).2.1, (h1 _).2.2.1, (h1 _).2.2.2, ?_⟩
  exact interrupted_future _ ((h1 _).2.2.1)

theorem C3_interrupted_witness :
    (handleMessage (handleEvents initSession
        [(0, ⟨some (some 1), some "hello", none, false, false⟩)]) 0
        interruptedMsg).sched.audioSources = [] ∧
    (handleMessage (handleEvents initSession
        [(0, ⟨some (some 1), some "hello", none, false, false⟩)]) 0
        interruptedMsg).sched.nextStartTime = 0 ∧
    (handleMessage (handleEvents initSession
        [(0, ⟨some (some 1), some "hello", none, false, false⟩)]) 0
        interruptedMsg).outputTrans = "" ∧
    (handleMessage (handleEvents initSession
        [(0, ⟨some (some 1), some "hello", none, false, false⟩)]) 0
        interruptedMsg).pose = .listeningSide ∧
    ∀ evs, ∀ m ∈ (handleEvents (handleMessage (handleEvents initSession
        [(0, ⟨some (some 1), some "hello", none, false, false⟩)]) 0
        interruptedMsg) evs).messages,
      m.isFinal = true → m.role = .model →
      m ∈ (handleMessage (handleEvents initSession
        [(0, ⟨some (some 1), some "hello", none, false, false⟩)]) 0
        interruptedMsg).messages ∨
        builtFrom (modelDeltas evs) m.text :=
  C3_interrupted (handleEvents initSession
    [(0, ⟨some (some 1), some "hello", none, false, false⟩)]) 0
    interruptedMsg rfl

end Clara
